import Mathlib

/-!
The shell simpsh: tokenizer, path resolution and execution engine.

A shallow embedding of `src/simpsh.c`.

Conventions of the embedding.

* A C string is the list of its bytes (`Nat`) in front of the terminating NUL.
  A `char *` that walks a buffer is the list of bytes from the pointer to the
  end of the buffer, so `*str` is `cur str` (0 at the end of the list) and
  `str++` drops the head.  A byte 0 inside a list is read as a terminator, as
  the C loops do.
* `Strtok` keeps `str - str_begin` in `pos`; the bytes in front of `str` are
  never read again, so they are not kept.
* Buffers are unbounded lists.  On a line of `Getline`, which has fewer than
  `PROMPTSIZE` bytes, `Strtok` stays inside the `TOKENSIZE` entries of the
  vector and the `PROMPTSIZE` bytes of a token (`Strtok_within_capacity`), so
  nothing is lost there; the block `retval` of `Getpath` is not bounded in
  the model.
* The operating system and the C library are a parameter of `Execute`
  (`World`); the calls that reach them are recorded as events.
* The outer loop of `Strtok` need not terminate, so it runs on fuel; `none`
  stands for a run that is still looping when the fuel is used up.
-/

namespace Simpsh

/-! ## Constants -/

/-- Bytes of a C string in front of its NUL. -/
abbrev Str := List Nat

def PROMPTSIZE : Nat := 256
def TOKENSIZE : Nat := 128
def ENVSIZE : Nat := 4
def INPUT : Nat := 1
def OUTPUT : Nat := 2
def MAXREDIR : Nat := 2
def ENOENT : Nat := 2

/-- Bytes of a string literal. -/
def bytes (s : String) : Str := s.toList.map Char.toNat

/-- The macro `PATH`, the text "/usr/bin/:". -/
def PATH : Str := [0x2f, 0x75, 0x73, 0x72, 0x2f, 0x62, 0x69, 0x6e, 0x2f, 0x3a]

/-- The macro `SHELL`, the text "simpsh". -/
def SHELL : Str := [0x73, 0x69, 0x6d, 0x70, 0x73, 0x68]

/-- The macro `TERM`, the text "dumb". -/
def TERM : Str := [0x64, 0x75, 0x6d, 0x62]

/-- The byte under a pointer: `*str`, 0 at the end of the string. -/
def cur (s : Str) : Nat := s.headD 0

/-! ## String functions -/

/-- Function `Strcmp`: 1 when both strings end together without a differing byte,
0 otherwise. -/
def Strcmp : Str → Str → Nat
  | [], [] => 1
  | [], t :: _ => if t ≠ 0 then 0 else 1
  | s :: _, [] => if s ≠ 0 then 0 else 1
  | s :: ss, t :: ts =>
    if s ≠ 0 ∧ t ≠ 0 then
      if s ≠ t then 0 else Strcmp ss ts
    else if s ≠ 0 ∨ t ≠ 0 then 0 else 1

/-- The bytes of `s` in front of the first NUL. -/
def cstr (s : Str) : Str := s.takeWhile (fun c => c != 0)

/-- Function `Append`: `t` is written over the terminator of `s`. -/
def Append (s t : Str) : Str := cstr s ++ cstr t

/-! ## Tokenizer -/

/-- Condition of the first inner loop of `Strtok` (leading whitespace). -/
def isSpace (delim c : Nat) : Bool :=
  c != 0 && (c == 0x0a || c == delim || c == 0x09)

/-- Condition of the second inner loop of `Strtok` (bytes of a word). -/
def isWord (delim c : Nat) : Bool :=
  c != 0 && (c != 0x0a && c != delim && c != 0x09) && (c != 0x3c && c != 0x3e)

/-- Local variables of `Strtok` at the head of its outer loop. -/
structure TokState where
  /-- bytes from `str` to the end of the line -/
  str : Str
  /-- the offset `str - str_begin` -/
  pos : Nat
  /-- the entries `tokens[0] .. tokens[token_index - 1]` -/
  tokens : List Str
  redir_count : Nat
  redir : Nat
deriving DecidableEq, Repr

/-- What a call of `Strtok` ends in. -/
inductive TokResult where
  /-- the vector in front of the sentinel, and `*redir` -/
  | ret (tokens : List Str) (redir : Nat)
  /-- Call of `DIE_WITH_ERROR ("simpsh")`: diagnostic, then `exit (0)` -/
  | die
deriving DecidableEq, Repr

/-- Lines 276-298: the redirection block, run with `str` already behind the
word.  Gives the line, `redir_count` and `*redir`, or `none` when it calls
`DIE_WITH_ERROR`. -/
def redirBlock (str : Str) (pos redir_count redir : Nat) : Option (Str × Nat × Nat) :=
  if pos ≠ 0 then
    if redir_count < MAXREDIR then
      if cur str = 0x3c then some (0x20 :: str.tail, redir_count + 1, 1)
      else if cur str = 0x3e then some (0x20 :: str.tail, redir_count + 1, 2)
      else some (str, redir_count, redir)
    else if redir ≠ 3 then some (str, redir_count, 3)
    else none
  else some (str, redir_count, redir)

/-- Lines 299-305: the token in `tokens[token_index]` is kept (the index moves
on) only when it is not empty and the line has not been read to its end. -/
def commit (tokens : List Str) (tok str : Str) : List Str :=
  if Strcmp tok [] = 0 then
    if cur str ≠ 0 then tokens ++ [tok] else tokens
  else tokens

/-- One pass through the body of the outer loop of `Strtok` (lines 260-305);
`none` when the pass ends in `DIE_WITH_ERROR`. -/
def StrtokStep (delim : Nat) (s : TokState) : Option TokState :=
  let s1 := s.str.dropWhile (isSpace delim)
  let tok := s1.takeWhile (isWord delim)
  let s2 := s1.dropWhile (isWord delim)
  let pos := s.pos + (s.str.length - s2.length)
  match redirBlock s2 pos s.redir_count s.redir with
  | none => none
  | some (str, redir_count, redir) =>
    some ⟨str, pos, commit s.tokens tok str, redir_count, redir⟩

/-- The outer loop `while (*str)` of `Strtok`, on fuel. -/
def StrtokLoop (delim : Nat) : Nat → TokState → Option TokResult
  | 0, _ => none
  | fuel + 1, s =>
    if cur s.str = 0 then some (.ret s.tokens s.redir)
    else
      match StrtokStep delim s with
      | none => some .die
      | some s' => StrtokLoop delim fuel s'

/-- State of `Strtok` in front of its loop. -/
def StrtokInit (str : Str) : TokState := ⟨str, 0, [], 0, 0⟩

/-- Fuel that every terminating run of the loop stays within. -/
def StrtokFuel (str : Str) : Nat := 4 * str.length + 4

/-- Function `Strtok (str, delim, redir)`: the token vector and `*redir`, a fatal exit,
or `none` when the loop does not terminate. -/
def Strtok (str : Str) (delim : Nat) : Option TokResult :=
  StrtokLoop delim (StrtokFuel str) (StrtokInit str)

/-! ## Environment store -/

/-- Text that `printf` writes for a `%d` argument in `0 ..`. -/
def decimalNat (n : Nat) : Str := (Nat.toDigits 10 n).map Char.toNat

/-- Text that `printf` writes for a `%d` argument. -/
def decimal (n : Int) : Str :=
  if n < 0 then 0x2d :: decimalNat n.natAbs else decimalNat n.toNat

/-- Function `Initenv`: the four entries in front of the terminating NULL. -/
def Initenv : List Str :=
  [Append (Append [] (bytes "SHELL=")) SHELL,
   Append (Append [] (bytes "PATH=")) PATH,
   Append (Append [] (bytes "TERM=")) TERM,
   Append [] (bytes "?=")]

/-- Function `Setenv (err_str, err_int)`: the new text of `err_str`.  `snprintf` with
size 6 writes at most 5 bytes and the terminator. -/
def Setenv (err_int : Int) : Str :=
  (bytes "?=" ++ decimal err_int).take 5

/-! ## Path resolver -/

/-- The `readdir` loop of `Getpath` (lines 481-485) over the entry names of
one directory: the final value of `check`. -/
def readdirLoop (bin : Str) : List Str → Nat
  | [] => 0
  | d_name :: more =>
    if Strcmp bin d_name ≠ 0 then Strcmp bin d_name else readdirLoop bin more

/-- The directory loop of `Getpath` (lines 471-492) from `curr_path` on:
`some dir` when it ends with `check` set and `*curr_path = dir`, `none` when
it ends with `check = 0`, at the end of the path or at a directory that
`opendir` cannot open. -/
def dirLoop (opendir : Str → Option (List Str)) (bin : Str) : List Str → Option Str
  | [] => none
  | dir :: more =>
    match opendir dir with
    | none => none
    | some entries =>
      if readdirLoop bin entries ≠ 0 then some dir else dirLoop opendir bin more

/-- What a call of `Getpath` ends in. -/
inductive PathResult where
  /-- The buffer `bin` now holds the directory followed by the name -/
  | found (bin : Str)
  /-- After `perror (bin)`, and `bin` now is the empty string -/
  | notFound
  /-- The call of `Strtok` ended in `DIE_WITH_ERROR` -/
  | die
  /-- The call of `Strtok` did not return -/
  | hang
deriving DecidableEq, Repr

/-- The body of `Getpath` with the text of the macro `PATH` as `path` and the
directories of the machine as `opendir` (entry names of a directory that can
be opened). -/
def GetpathIn (path : Str) (opendir : Str → Option (List Str)) (bin : Str) : PathResult :=
  match Strtok path 0x3a with
  | none => .hang
  | some .die => .die
  | some (.ret dirs _) =>
    match dirLoop opendir bin dirs with
    | some dir => .found (Append [] (Append (Append [] dir) bin))
    | none => .notFound

/-- Function `Getpath (bin)`, with the macro `PATH` as the search path. -/
def Getpath (opendir : Str → Option (List Str)) (bin : Str) : PathResult :=
  GetpathIn PATH opendir bin

/-! ## Execution engine -/

/-- Function `isspace` of the C library in the C locale. -/
def isspaceC (c : Nat) : Bool := c == 0x20 || (0x09 ≤ c && c ≤ 0x0d)

/-- Function `isdigit` of the C library. -/
def isdigitC (c : Nat) : Bool := 0x30 ≤ c && c ≤ 0x39

def EINVAL : Nat := 22
def ERANGE : Nat := 34
def LONG_MAX : Int := 2 ^ 63 - 1
def LONG_MIN : Int := -(2 ^ 63)

/-- Value of a run of decimal digits. -/
def digitsVal (ds : Str) : Nat := ds.foldl (fun acc c => 10 * acc + (c - 0x30)) 0

/-- Call `strtol (s, NULL, 10)` of the C library with a 64-bit `long`: the value
and the `errno` it sets (0 when it leaves `errno` alone).  ISO C sets `errno`
only on overflow; POSIX lets an implementation report `EINVAL` when there is
no digit to convert, which `einval` switches on (glibc does not). -/
def strtol (einval : Bool) (s : Str) : Int × Nat :=
  let s1 := s.dropWhile isspaceC
  let neg := cur s1 == 0x2d
  let s2 := if cur s1 == 0x2d || cur s1 == 0x2b then s1.tail else s1
  let ds := s2.takeWhile isdigitC
  if ds = [] then (0, if einval then EINVAL else 0)
  else if neg then
    if (LONG_MAX + 1 : Int) < digitsVal ds then (LONG_MIN, ERANGE) else (-(digitsVal ds : Int), 0)
  else
    if LONG_MAX < (digitsVal ds : Int) then (LONG_MAX, ERANGE) else ((digitsVal ds : Int), 0)

/-- Conversion of a `long` to `int` (32 bits, two's complement). -/
def toInt32 (v : Int) : Int := (v + 2 ^ 31) % 2 ^ 32 - 2 ^ 31

/-- Value of `fork ()`. -/
inductive ForkResult where
  /-- Zero: this is the child -/
  | child
  /-- the child's pid: this is the parent -/
  | parent
  /-- a negative value -/
  | error
deriving DecidableEq, Repr

/-- What the operating system and the C library answer during one call of
`Execute`.  No signal arrives during the call: `interrupt_state` keeps its
value. -/
structure World where
  interrupt_state : Bool
  fork : ForkResult
  /-- Call `execve (path, argv, env)`: `none` when the image is replaced, else the
  `errno` of the failure -/
  execve : Str → List Str → Option Nat
  /-- entry names of a directory, `none` when `opendir` fails -/
  opendir : Str → Option (List Str)
  /-- Value `WEXITSTATUS` of the child when `WIFEXITED` holds, else `none` -/
  wait : Option Nat
  /-- whether `strtol` reports `EINVAL` when it converts nothing -/
  einval : Bool

/-- Calls with an effect outside the process, in the order made. -/
inductive Event where
  /-- Call `Redirect (file_name, direction)`; `none` is a NULL pointer -/
  | redirect (file_name : Option Str) (direction : Nat)
  /-- Call `execve (path, argv, env)` -/
  | execve (path : Str) (argv : List Str)
  /-- Call `perror (msg)` -/
  | perror (msg : Str)
deriving DecidableEq, Repr

/-- How the flow of control leaves `Execute`. -/
inductive Fate where
  /-- Statement `return v`, in the forked child when `inChild` -/
  | ret (inChild : Bool) (v : Int)
  /-- Call `exit (code)`, in the forked child when `inChild` -/
  | exit (inChild : Bool) (code : Int)
  /-- an `execve` in the child replaced the image -/
  | replaced
  /-- the call does not return -/
  | hang
deriving DecidableEq, Repr

/-- Calls made by `Execute` and the way it ends. -/
structure ExecResult where
  events : List Event
  fate : Fate
deriving DecidableEq, Repr

/-- Function `DIE_WITH_ERROR (msg)`: `perror (msg)`, then `exit (0)`. -/
def DIE_WITH_ERROR (inChild : Bool) (msg : Str) : ExecResult :=
  ⟨[.perror msg], .exit inChild 0⟩

/-- Lines 339-346: the calls of `Redirect` in the child.  `args[i]` behind
the sentinel reads as NULL. -/
def childRedirects (args : List Str) (redir : Nat) : List Event :=
  if redir = 3 then [.redirect (args.get? 1) INPUT, .redirect (args.get? 2) OUTPUT]
  else if redir ≠ 0 then [.redirect (args.get? 1) redir]
  else []

/-- Lines 339-346: the vector `args` behind the redirections; line 345 writes
NULL to `args[1]` when there is one redirection. -/
def childArgs (args : List Str) (redir : Nat) : List Str :=
  if redir = 3 then args
  else if redir ≠ 0 then args.take 1
  else args

/-- Lines 347-369 and the `return` of line 378: the calls of `execve` in the
child, with `args` as line 346 leaves it. -/
def childExec (w : World) (args : List Str) : ExecResult :=
  let arg0 : Str := args.headD []
  if cur arg0 ≠ 0 then
    match w.execve arg0 args with
    | none => ⟨[.execve arg0 args], .replaced⟩
    | some errno =>
      if errno = ENOENT ∧ cur arg0 ≠ 0x2f ∧ cur arg0 ≠ 0x2e then
        match Getpath w.opendir arg0 with
        | .hang => ⟨[.execve arg0 args], .hang⟩
        | .die => ⟨[.execve arg0 args, .perror (bytes "simpsh")], .exit true 0⟩
        | .found bin =>
          match w.execve bin (bin :: args.tail) with
          | none => ⟨[.execve arg0 args, .execve bin (bin :: args.tail)], .replaced⟩
          | some _ => ⟨[.execve arg0 args, .execve bin (bin :: args.tail)], .exit true 255⟩
        | .notFound =>
          match w.execve [] ([] :: args.tail) with
          | none =>
            ⟨[.execve arg0 args, .perror arg0, .execve [] ([] :: args.tail)], .replaced⟩
          | some _ =>
            ⟨[.execve arg0 args, .perror arg0, .execve [] ([] :: args.tail)], .exit true 255⟩
      else ⟨[.execve arg0 args, .perror (bytes "simpsh")], .ret true 0⟩
  else ⟨[], .ret true 0⟩

/-- The child branch of `Execute` (lines 336-369), then the `return` of line
378. -/
def ExecuteChild (w : World) (args : List Str) (redir : Nat) : ExecResult :=
  ⟨childRedirects args redir ++ (childExec w (childArgs args redir)).events,
    (childExec w (childArgs args redir)).fate⟩

/-- Function `Execute (args, env, redir)`; `args` is the vector in front of its
sentinel. -/
def Execute (w : World) (args : List Str) (redir : Nat) : ExecResult :=
  match args with
  | [] => ⟨[], .ret false 255⟩
  | arg0 :: rest =>
    if cur arg0 = 0 then ⟨[], .ret false 255⟩
    else if Strcmp arg0 (bytes "exit") ≠ 0 then
      match rest with
      | [] => ⟨[], .exit false 0⟩
      | arg1 :: _ =>
        if (strtol w.einval arg1).2 ≠ 0 then DIE_WITH_ERROR false (bytes "strtol")
        else ⟨[], .exit false (toInt32 (strtol w.einval arg1).1)⟩
    else if w.interrupt_state = false then
      match w.fork with
      | .error => DIE_WITH_ERROR false (bytes "Fork error")
      | .child => ExecuteChild w (arg0 :: rest) redir
      | .parent =>
        match w.wait with
        | none => DIE_WITH_ERROR false (bytes "Child exited abnormally")
        | some status => ⟨[], .ret false status⟩
    else ⟨[], .ret false 0⟩

/-! ## Main loop -/

/-- How one pass of the loop of `main` ends. -/
inductive IterResult where
  /-- the loop goes on to its next pass with this environment table, in the
  forked child when `inChild` -/
  | next (inChild : Bool) (env : List Str)
  /-- the process has ended or has been replaced -/
  | stop (fate : Fate)
deriving DecidableEq, Repr

/-- Lines 134-143 of `main`: the line is tokenized and executed, and a return
value other than 255 is written to `env[3]`. -/
def mainIteration (w : World) (env : List Str) (inputstr : Str) : IterResult :=
  match Strtok inputstr 0x20 with
  | none => .stop .hang
  | some .die => .stop (.exit false 0)
  | some (.ret tokens redir) =>
    match (Execute w tokens redir).fate with
    | .ret inChild retval =>
      if retval ≠ 255 then .next inChild (env.set 3 (Setenv retval)) else .next inChild env
    | fate => .stop fate

/-! ## Notions used in the statements -/

/-- The redirection symbols, the bytes of `<` and `>`. -/
def isSym (c : Nat) : Bool := c == 0x3c || c == 0x3e

/-- Measure that falls with every pass of the loop that does not end it. -/
def tokMeasure (s : TokState) : Nat :=
  2 * (2 * s.str.length + (if isSym (cur s.str) then 1 else 0))
    + (if MAXREDIR ≤ s.redir_count ∧ s.redir = 3 then 0 else 1)

/-- Every byte is a space or a tab. -/
def blankRun (s : Str) : Bool := s.all (fun c => c == 0x20 || c == 0x09)

/-- A word of a command line: not empty, and no NUL, space, tab, newline,
`<` or `>` in it. -/
def plainWord (w : Str) : Bool :=
  !w.isEmpty && w.all (fun c => c != 0 && c != 0x20 && c != 0x09 && c != 0x0a
    && c != 0x3c && c != 0x3e)

/-- Words, each behind the run of bytes that separates it from what is in
front of it. -/
def spaced : List (Str × Str) → Str
  | [] => []
  | (gap, w) :: more => gap ++ (w ++ spaced more)

/-- The state at the head of the outer loop of `Strtok` after `n` passes;
`none` when the loop has ended or has called `DIE_WITH_ERROR` before. -/
def StrtokIter (delim : Nat) : Nat → TokState → Option TokState
  | 0, s => some s
  | n + 1, s =>
    if cur s.str = 0 then none
    else
      match StrtokStep delim s with
      | none => none
      | some s' => StrtokIter delim n s'

/-- A run in which `fork` returns the child's pid to the shell and the child
exits normally with `status`. -/
def parentWorld (status : Nat) : World :=
  ⟨false, .parent, fun _ _ => none, fun _ => none, some status, false⟩

/-- A machine whose only directory is `/usr/bin/`, with the entries `cat`
and `ls`. -/
def usrBin (dir : Str) : Option (List Str) :=
  if dir = bytes "/usr/bin/" then some [bytes "cat", bytes "ls"] else none

/-- A run in which `fork` returns 0 (this is the child), every `execve`
fails with `errno`, and the machine is `usrBin`. -/
def childWorld (errno : Nat) : World :=
  ⟨false, .child, fun _ _ => some errno, usrBin, none, false⟩

/-- One more than the bytes of the line when `str` stands on a byte that ends
a word, else the bytes of the line. -/
def tokRoom (L : Nat) (s : TokState) : Nat :=
  L + (if cur s.str ≠ 0 ∧ isWord 0x20 (cur s.str) = false then 1 else 0)

/-- Invariant of the loop of `Strtok` on a line of `L` bytes: every token
kept so far stands for two bytes of the line, and no token is longer than the
line. -/
def withinLine (L : Nat) (s : TokState) : Prop :=
  2 * s.tokens.length + s.str.length ≤ tokRoom L s
    ∧ s.str.length ≤ L ∧ ∀ t ∈ s.tokens, t.length ≤ L

/-! ## Lemmas on the scanning loops -/

/-! ## Termination of the tokenizer loop -/

theorem cur_cons (c : Nat) (cs : Str) : cur (c :: cs) = c := rfl

theorem cur_nil : cur [] = 0 := rfl

theorem length_dropWhile_le (p : Nat → Bool) (l : Str) : (l.dropWhile p).length ≤ l.length :=
  (List.dropWhile_sublist p).length_le

theorem length_dropWhile_lt_of_head (p : Nat → Bool) (l : Str) (h : p (cur l) = true)
    (hl : l ≠ []) : (l.dropWhile p).length < l.length := by
  cases l with
  | nil => exact absurd rfl hl
  | cons c cs =>
    have hc : p c = true := h
    rw [List.dropWhile_cons_of_pos hc]
    have := length_dropWhile_le p cs
    simp only [List.length_cons]
    omega

theorem dropWhile_eq_self_of_head (p : Nat → Bool) (l : Str) (h : p (cur l) = false) :
    l.dropWhile p = l := by
  cases l with
  | nil => rfl
  | cons c cs =>
    have hc : ¬ p c = true := by
      have : p c = false := h
      simp [this]
    exact List.dropWhile_cons_of_neg hc

/-- A byte is 0, whitespace, a word byte, or a redirection symbol other than
the delimiter. -/
theorem byte_cases (delim c : Nat) :
    c = 0 ∨ isSpace delim c = true ∨ isWord delim c = true
      ∨ (isSym c = true ∧ isSpace delim c = false ∧ isWord delim c = false) := by
  by_cases h0 : c = 0
  · exact Or.inl h0
  by_cases h1 : c = 0x0a
  · right; left; simp [isSpace, h1]
  by_cases h2 : c = delim
  · right; left; subst h2; simp [isSpace, h0]
  by_cases h3 : c = 0x09
  · right; left; simp [isSpace, h3]
  by_cases h4 : c = 0x3c
  · right; right; right; subst h4; simp [isSpace, isWord, isSym, h2]
  by_cases h5 : c = 0x3e
  · right; right; right; subst h5; simp [isSpace, isWord, isSym, h2]
  · right; right; left; simp [isWord, h0, h1, h2, h3, h4, h5]

theorem isSpace_false_of_isWord (delim c : Nat) (h : isWord delim c = true) :
    isSpace delim c = false := by
  simp only [isWord, Bool.and_eq_true, bne_iff_ne, ne_eq] at h
  simp [isSpace, h.1.2.1.1, h.1.2.1.2, h.1.2.2]

/-- The two scanning loops either move `str` forward or leave it on a
redirection symbol that is neither whitespace nor a word byte. -/
theorem scan_cases (delim : Nat) (str : Str) (h0 : cur str ≠ 0) :
    ((str.dropWhile (isSpace delim)).dropWhile (isWord delim)).length < str.length
      ∨ ((str.dropWhile (isSpace delim)).dropWhile (isWord delim) = str
          ∧ (str.dropWhile (isSpace delim)).takeWhile (isWord delim) = []
          ∧ isSym (cur str) = true ∧ isSpace delim (cur str) = false) := by
  have hne : str ≠ [] := by
    intro h; rw [h] at h0; exact h0 rfl
  rcases byte_cases delim (cur str) with h | h | h | ⟨h1, h2, h3⟩
  · exact absurd h h0
  · left
    have := length_dropWhile_lt_of_head _ str h hne
    have := length_dropWhile_le (isWord delim) (str.dropWhile (isSpace delim))
    omega
  · left
    have hs : isSpace delim (cur str) = false := isSpace_false_of_isWord _ _ h
    rw [dropWhile_eq_self_of_head _ str hs]
    exact length_dropWhile_lt_of_head _ str h hne
  · right
    rw [dropWhile_eq_self_of_head _ str h2, dropWhile_eq_self_of_head _ str h3]
    refine ⟨rfl, ?_, h1, h2⟩
    cases str with
    | nil => rfl
    | cons c cs =>
      have hc : ¬ isWord delim c = true := by
        have : isWord delim c = false := h3
        simp [this]
      exact List.takeWhile_cons_of_neg hc


theorem redirBlock_length (str : Str) (pos rc rd : Nat) (r : Str × Nat × Nat)
    (h : redirBlock str pos rc rd = some r) : r.1.length = str.length := by
  unfold redirBlock at h
  have hcons : ∀ c : Nat, cur str = c → c ≠ 0 → (0x20 :: str.tail).length = str.length := by
    intro c hc hc0
    cases str with
    | nil => rw [cur_nil] at hc; exact absurd hc.symm hc0
    | cons a as => simp
  split_ifs at h with h1 h2 h3 h4 h5
  · cases h; exact hcons _ h3 (by decide)
  · cases h; exact hcons _ h4 (by decide)
  · cases h; rfl
  · cases h; rfl
  · cases h; rfl

/-- What the redirection block does when `str` has stopped on a symbol behind
the start of the line. -/
theorem redirBlock_on_sym (str : Str) (pos rc rd : Nat) (r : Str × Nat × Nat)
    (hsym : isSym (cur str) = true) (hpos : pos ≠ 0)
    (h : redirBlock str pos rc rd = some r) :
    (rc < MAXREDIR ∧ cur r.1 = 0x20) ∨ (MAXREDIR ≤ rc ∧ rd ≠ 3 ∧ r = (str, rc, 3)) := by
  unfold redirBlock at h
  have hs : cur str = 0x3c ∨ cur str = 0x3e := by
    simpa [isSym] using hsym
  split_ifs at h with h2 h3 h4 h5
  · cases h; exact Or.inl ⟨h2, rfl⟩
  · cases h; exact Or.inl ⟨h2, rfl⟩
  · rcases hs with hs | hs
    · exact absurd hs h3
    · exact absurd hs h4
  · cases h; exact Or.inr ⟨by omega, h5, rfl⟩

theorem tokMeasure_le (s : TokState) : tokMeasure s ≤ 4 * s.str.length + 3 := by
  unfold tokMeasure
  split_ifs <;> omega

theorem tokMeasure_ge (s : TokState) : 4 * s.str.length ≤ tokMeasure s := by
  unfold tokMeasure
  split_ifs <;> omega

/-- A pass of the loop body that does not start on a symbol at the start of
the line lowers the measure and leaves `str` behind `str_begin`. -/
theorem StrtokStep_decreases (delim : Nat) (s s' : TokState) (h0 : cur s.str ≠ 0)
    (hgo : s.pos ≠ 0 ∨ isSym (cur s.str) = false ∨ isSpace delim (cur s.str) = true)
    (h : StrtokStep delim s = some s') : tokMeasure s' < tokMeasure s ∧ s'.pos ≠ 0 := by
  unfold StrtokStep at h
  simp only at h
  generalize hs2 : (s.str.dropWhile (isSpace delim)).dropWhile (isWord delim) = s2 at h
  generalize hpos : s.pos + (s.str.length - s2.length) = pos at h
  cases hr : redirBlock s2 pos s.redir_count s.redir with
  | none => rw [hr] at h; cases h
  | some r =>
    rw [hr] at h
    obtain ⟨str', rc', rd'⟩ := r
    simp only [Option.some.injEq] at h
    subst h
    have hlen := redirBlock_length _ _ _ _ _ hr
    simp only at hlen
    rcases scan_cases delim s.str h0 with hlt | ⟨heq, -, hsym, hsp⟩
    · rw [hs2] at hlt
      have h1 := tokMeasure_le ⟨str', pos, commit s.tokens
        ((s.str.dropWhile (isSpace delim)).takeWhile (isWord delim)) str', rc', rd'⟩
      have h2 := tokMeasure_ge s
      simp only at h1
      constructor
      · omega
      · simp only; omega
    · rw [hs2] at heq
      have hp : s.pos ≠ 0 := by
        rcases hgo with hgo | hgo | hgo
        · exact hgo
        · rw [hsym] at hgo; cases hgo
        · rw [hsp] at hgo; cases hgo
      have hpos' : pos ≠ 0 := by omega
      subst heq
      rcases redirBlock_on_sym _ _ _ _ _ hsym hpos' hr with ⟨hrc, hc⟩ | ⟨hrc, hrd, hc⟩
      · simp only at hc
        have e1 : isSym (cur str') = false := by rw [hc]; decide
        have hm' : tokMeasure ⟨str', pos, commit s.tokens
            ((s.str.dropWhile (isSpace delim)).takeWhile (isWord delim)) str', rc', rd'⟩
            ≤ 4 * s.str.length + 1 := by
          simp only [tokMeasure, e1, hlen, Bool.false_eq_true, if_false]
          split_ifs <;> omega
        have hm : 4 * s.str.length + 2 ≤ tokMeasure s := by
          simp only [tokMeasure, hsym, if_true]
          omega
        exact ⟨by omega, hpos'⟩
      · simp only [Prod.mk.injEq] at hc
        obtain ⟨h1, h2, h3⟩ := hc
        have hm' : tokMeasure ⟨str', pos, commit s.tokens
            ((s.str.dropWhile (isSpace delim)).takeWhile (isWord delim)) str', rc', rd'⟩
            = 2 * (2 * s.str.length + (if isSym (cur s.str) then 1 else 0)) := by
          simp [tokMeasure, h1, h2, h3, hrc]
        have hm : tokMeasure s
            = 2 * (2 * s.str.length + (if isSym (cur s.str) then 1 else 0)) + 1 := by
          simp [tokMeasure, hrd]
        exact ⟨by omega, hpos'⟩

/-- The loop ends within `tokMeasure + 1` passes unless it starts on a
redirection symbol at the start of the line. -/
theorem StrtokLoop_terminates (delim : Nat) :
    ∀ (n : Nat) (s : TokState), tokMeasure s < n →
      (s.pos ≠ 0 ∨ isSym (cur s.str) = false ∨ isSpace delim (cur s.str) = true) →
      ∃ r, StrtokLoop delim n s = some r := by
  intro n
  induction n with
  | zero => intro s h; omega
  | succ n ih =>
    intro s hm hgo
    unfold StrtokLoop
    by_cases h0 : cur s.str = 0
    · rw [if_pos h0]; exact ⟨_, rfl⟩
    · rw [if_neg h0]
      cases hstep : StrtokStep delim s with
      | none => exact ⟨_, rfl⟩
      | some s' =>
        have hd := StrtokStep_decreases delim s s' h0 hgo hstep
        exact ih s' (by omega) (Or.inl hd.2)

/-- More fuel does not change the result of a run that ended. -/
theorem StrtokLoop_mono (delim : Nat) :
    ∀ (n : Nat) (s : TokState) (r : TokResult), StrtokLoop delim n s = some r →
      ∀ m, n ≤ m → StrtokLoop delim m s = some r := by
  intro n
  induction n with
  | zero => intro s r h; simp [StrtokLoop] at h
  | succ n ih =>
    intro s r h m hm
    obtain ⟨m, rfl⟩ : ∃ k, m = k + 1 := ⟨m - 1, by omega⟩
    unfold StrtokLoop at h ⊢
    by_cases h0 : cur s.str = 0
    · rw [if_pos h0] at h ⊢; exact h
    · rw [if_neg h0] at h ⊢
      cases hstep : StrtokStep delim s with
      | none => rw [hstep] at h; exact h
      | some s' =>
        rw [hstep] at h
        exact ih s' r h m (by omega)

/-- A result found with any fuel is the result of `Strtok`, when the line
does not start with a redirection symbol. -/
theorem Strtok_of_loop (delim : Nat) (str : Str) (n : Nat) (r : TokResult)
    (hgo : isSym (cur str) = false ∨ isSpace delim (cur str) = true)
    (h : StrtokLoop delim n (StrtokInit str) = some r) : Strtok str delim = some r := by
  have hm : tokMeasure (StrtokInit str) < StrtokFuel str := by
    have := tokMeasure_le (StrtokInit str)
    simp only [StrtokInit] at this
    simp only [StrtokFuel, StrtokInit]
    omega
  obtain ⟨r', hr'⟩ := StrtokLoop_terminates delim _ _ hm (Or.inr hgo)
  have h1 := StrtokLoop_mono delim _ _ _ h (max n (StrtokFuel str)) (le_max_left _ _)
  have h2 := StrtokLoop_mono delim _ _ _ hr' (max n (StrtokFuel str)) (le_max_right _ _)
  rw [h1] at h2
  cases h2
  exact hr'

theorem takeWhile_eq_nil_of_head (p : Nat → Bool) (l : Str) (h : p (cur l) = false) :
    l.takeWhile p = [] := by
  cases l with
  | nil => rfl
  | cons c cs =>
    have hc : ¬ p c = true := by
      have : p c = false := h
      simp [this]
    exact List.takeWhile_cons_of_neg hc

theorem isWord_zero (delim : Nat) : isWord delim 0 = false := by
  simp [isWord]

theorem isSpace_zero (delim : Nat) : isSpace delim 0 = false := by
  simp [isSpace]

theorem cur_append_of_ne_nil (a b : Str) (h : a ≠ []) : cur (a ++ b) = cur a := by
  cases a with
  | nil => exact absurd rfl h
  | cons c cs => rfl

theorem cur_mem (a : Str) (h : a ≠ []) : cur a ∈ a := by
  cases a with
  | nil => exact absurd rfl h
  | cons c cs => simp [cur]

/-- The two scanning loops over whitespace `gap`, a word `w` and a rest that
starts with the byte that ends the word. -/
theorem StrtokStep_scan (delim : Nat) (gap w rest : Str) (pos : Nat) (toks : List Str)
    (rc rd : Nat)
    (hgap : ∀ c ∈ gap, isSpace delim c = true) (hw : ∀ c ∈ w, isWord delim c = true)
    (hrest : isWord delim (cur rest) = false)
    (hrest' : w = [] → isSpace delim (cur rest) = false) :
    StrtokStep delim ⟨gap ++ (w ++ rest), pos, toks, rc, rd⟩ =
      match redirBlock rest (pos + (gap.length + w.length)) rc rd with
      | none => none
      | some (str, rc', rd') =>
        some ⟨str, pos + (gap.length + w.length), commit toks w str, rc', rd'⟩ := by
  have h1 : (gap ++ (w ++ rest)).dropWhile (isSpace delim) = w ++ rest := by
    rw [List.dropWhile_append_of_pos hgap]
    apply dropWhile_eq_self_of_head
    by_cases hwn : w = []
    · subst hwn; exact hrest' rfl
    · rw [cur_append_of_ne_nil _ _ hwn]
      exact isSpace_false_of_isWord _ _ (hw _ (cur_mem w hwn))
  have h2 : (w ++ rest).takeWhile (isWord delim) = w := by
    rw [List.takeWhile_append_of_pos hw, takeWhile_eq_nil_of_head _ _ hrest, List.append_nil]
  have h3 : (w ++ rest).dropWhile (isWord delim) = rest := by
    rw [List.dropWhile_append_of_pos hw, dropWhile_eq_self_of_head _ _ hrest]
  have h4 : (gap ++ (w ++ rest)).length - rest.length = gap.length + w.length := by
    simp only [List.length_append]; omega
  unfold StrtokStep
  simp only [h1, h2, h3, h4]

theorem Strcmp_nil (w : Str) : Strcmp w [] = if cur w ≠ 0 then 0 else 1 := by
  cases w with
  | nil => rfl
  | cons c cs => simp [Strcmp, cur]

theorem commit_word (toks : List Str) (w str : Str) (hw : cur w ≠ 0) (hs : cur str ≠ 0) :
    commit toks w str = toks ++ [w] := by
  simp [commit, Strcmp_nil, hw, hs]

theorem commit_nil (toks : List Str) (str : Str) : commit toks [] str = toks := by
  simp [commit, Strcmp]

theorem redirBlock_plain (str : Str) (pos rc rd : Nat) (h1 : cur str ≠ 0x3c)
    (h2 : cur str ≠ 0x3e) (hrc : rc < MAXREDIR) :
    redirBlock str pos rc rd = some (str, rc, rd) := by
  simp [redirBlock, h1, h2, hrc]

theorem StrtokLoop_step (delim n : Nat) (s s' : TokState) (h0 : cur s.str ≠ 0)
    (hs : StrtokStep delim s = some s') :
    StrtokLoop delim (n + 1) s = StrtokLoop delim n s' := by
  rw [StrtokLoop, if_neg h0, hs]

theorem StrtokLoop_done (delim n : Nat) (s : TokState) (h0 : cur s.str = 0) :
    StrtokLoop delim (n + 1) s = some (.ret s.tokens s.redir) := by
  rw [StrtokLoop, if_pos h0]

/-! ## Lines of words -/

theorem blankRun_space (s : Str) (h : blankRun s = true) :
    ∀ c ∈ s, isSpace 0x20 c = true := by
  intro c hc
  have := List.all_eq_true.mp h c hc
  simp only [Bool.or_eq_true, beq_iff_eq] at this
  rcases this with h | h <;> subst h <;> decide

theorem plainWord_ne_nil (w : Str) (h : plainWord w = true) : w ≠ [] := by
  intro hw; subst hw; simp [plainWord] at h

theorem plainWord_word (w : Str) (h : plainWord w = true) :
    ∀ c ∈ w, isWord 0x20 c = true := by
  intro c hc
  simp only [plainWord, Bool.and_eq_true, List.all_eq_true, bne_iff_ne, ne_eq] at h
  have := h.2 c hc
  simp [isWord, this]

theorem plainWord_cur (w : Str) (h : plainWord w = true) : isWord 0x20 (cur w) = true :=
  plainWord_word w h _ (cur_mem w (plainWord_ne_nil w h))

theorem isWord_ne_zero (delim c : Nat) (h : isWord delim c = true) : c ≠ 0 := by
  intro hc; subst hc; simp [isWord] at h

theorem isSpace_ne_zero (delim c : Nat) (h : isSpace delim c = true) : c ≠ 0 := by
  intro hc; subst hc; simp [isSpace] at h

theorem isWord_not_sym (delim c : Nat) (h : isWord delim c = true) : c ≠ 0x3c ∧ c ≠ 0x3e := by
  simp only [isWord, Bool.and_eq_true, bne_iff_ne, ne_eq] at h
  exact h.2

theorem isSpace_not_sym (c : Nat) (h : isSpace 0x20 c = true) : c ≠ 0x3c ∧ c ≠ 0x3e := by
  simp only [isSpace, Bool.and_eq_true, bne_iff_ne, ne_eq, Bool.or_eq_true, beq_iff_eq] at h
  rcases h.2 with (h | h) | h <;> subst h <;> decide

theorem isWord_false_of_isSpace (delim c : Nat) (h : isSpace delim c = true) :
    isWord delim c = false := by
  cases hw : isWord delim c with
  | false => rfl
  | true => rw [isSpace_false_of_isWord _ _ hw] at h; cases h

/-- The byte a word is followed by, when more spaced words and then a tail
of whitespace follow, is whitespace. -/
theorem cur_spaced_space (more : List (Str × Str)) (tail : Str)
    (hitems : ∀ p ∈ more, blankRun p.1 = true)
    (hsep : ∀ p ∈ more, p.1 ≠ [])
    (htail : isSpace 0x20 (cur tail) = true) :
    isSpace 0x20 (cur (spaced more ++ tail)) = true := by
  cases more with
  | nil => exact htail
  | cons p more =>
    obtain ⟨g, w⟩ := p
    have hg : g ≠ [] := hsep (g, w) (List.mem_cons_self _ _)
    have hb := hitems (g, w) (List.mem_cons_self _ _)
    simp only [spaced, List.append_assoc]
    rw [cur_append_of_ne_nil _ _ hg]
    exact blankRun_space g hb _ (cur_mem g hg)

/-- The loop over spaced words and a tail of whitespace, with fewer than
`MAXREDIR` redirections seen: every word is appended and `*redir` is kept. -/
theorem StrtokLoop_words (tail : Str) (htail : ∀ c ∈ tail, isSpace 0x20 c = true)
    (htne : tail ≠ []) (rc rd : Nat) (hrc : rc < MAXREDIR) :
    ∀ (items : List (Str × Str)),
      (∀ p ∈ items, blankRun p.1 = true ∧ plainWord p.2 = true) →
      (∀ p ∈ items.tail, p.1 ≠ []) →
      ∀ (pos : Nat) (toks : List Str) (n : Nat), items.length + 2 ≤ n →
        StrtokLoop 0x20 n ⟨spaced items ++ tail, pos, toks, rc, rd⟩
          = some (.ret (toks ++ items.map Prod.snd) rd) := by
  have hct : isSpace 0x20 (cur tail) = true := htail _ (cur_mem tail htne)
  intro items
  induction items with
  | nil =>
    intro _ _ pos toks n hn
    obtain ⟨n, rfl⟩ : ∃ k, n = k + 2 := ⟨n - 2, by simp at hn; omega⟩
    have hstep := StrtokStep_scan 0x20 tail [] [] pos toks rc rd htail
      (by intro c hc; cases hc) (isWord_zero _) (fun _ => isSpace_zero _)
    simp only [List.append_nil, List.length_nil, Nat.add_zero, List.nil_append] at hstep
    rw [redirBlock_plain [] _ rc rd (by decide) (by decide) hrc] at hstep
    simp only [commit_nil] at hstep
    simp only [spaced, List.nil_append, List.map_nil, List.append_nil]
    rw [StrtokLoop_step _ _ _ _ (isSpace_ne_zero _ _ hct) hstep]
    exact StrtokLoop_done _ _ _ rfl
  | cons p more ih =>
    intro hitems hsep pos toks n hn
    obtain ⟨g, w⟩ := p
    obtain ⟨n, rfl⟩ : ∃ k, n = k + 1 := ⟨n - 1, by simp at hn; omega⟩
    have hp := hitems (g, w) (List.mem_cons_self _ _)
    have hmore : ∀ p ∈ more, blankRun p.1 = true ∧ plainWord p.2 = true :=
      fun p hp => hitems p (List.mem_cons_of_mem _ hp)
    have hsep' : ∀ p ∈ more, p.1 ≠ [] := hsep
    have hrest := cur_spaced_space more tail (fun p hp => (hmore p hp).1) hsep' hct
    have hwne := plainWord_ne_nil w hp.2
    have hstep := StrtokStep_scan 0x20 g w (spaced more ++ tail) pos toks rc rd
      (blankRun_space g hp.1) (plainWord_word w hp.2) (isWord_false_of_isSpace _ _ hrest)
      (fun h => absurd h hwne)
    rw [redirBlock_plain _ _ rc rd (isSpace_not_sym _ hrest).1 (isSpace_not_sym _ hrest).2 hrc]
      at hstep
    simp only at hstep
    rw [commit_word _ _ _ (isWord_ne_zero _ _ (plainWord_cur w hp.2))
      (isSpace_ne_zero _ _ hrest)] at hstep
    have h0 : cur (spaced ((g, w) :: more) ++ tail) ≠ 0 := by
      simp only [spaced, List.append_assoc]
      by_cases hg : g = []
      · subst hg
        rw [List.nil_append, cur_append_of_ne_nil _ _ hwne]
        exact isWord_ne_zero _ _ (plainWord_cur w hp.2)
      · rw [cur_append_of_ne_nil _ _ hg]
        exact isSpace_ne_zero _ _ (blankRun_space g hp.1 _ (cur_mem g hg))
    have hstr : spaced ((g, w) :: more) ++ tail = g ++ (w ++ (spaced more ++ tail)) := by
      simp [spaced]
    rw [StrtokLoop_step _ _ ⟨spaced ((g, w) :: more) ++ tail, pos, toks, rc, rd⟩ _ h0
      (by rw [hstr]; exact hstep)]
    rw [ih hmore (fun p hp => hsep' p (List.mem_of_mem_tail hp)) _ _ n
      (by simp at hn ⊢; omega)]
    simp

theorem isSym_cur_spaced (items : List (Str × Str)) (tail : Str)
    (hitems : ∀ p ∈ items, blankRun p.1 = true ∧ plainWord p.2 = true)
    (htail : isSpace 0x20 (cur tail) = true) :
    isSym (cur (spaced items ++ tail)) = false := by
  have key : ∀ c, isSpace 0x20 c = true ∨ isWord 0x20 c = true → isSym c = false := by
    intro c hc
    have : c ≠ 0x3c ∧ c ≠ 0x3e := by
      rcases hc with h | h
      · exact isSpace_not_sym c h
      · exact isWord_not_sym _ c h
    simp [isSym, this.1, this.2]
  apply key
  cases items with
  | nil => exact Or.inl htail
  | cons p more =>
    obtain ⟨g, w⟩ := p
    have hp := hitems (g, w) (List.mem_cons_self _ _)
    simp only [spaced, List.append_assoc]
    by_cases hg : g = []
    · subst hg
      rw [List.nil_append, cur_append_of_ne_nil _ _ (plainWord_ne_nil w hp.2)]
      exact Or.inr (plainWord_cur w hp.2)
    · rw [cur_append_of_ne_nil _ _ hg]
      exact Or.inl (blankRun_space g hp.1 _ (cur_mem g hg))

/-- A pass of the loop that ends on a redirection symbol behind the start of
the line, with fewer than `MAXREDIR` symbols seen: the symbol becomes a space
and is counted. -/
theorem StrtokStep_redirect (gap w R : Str) (sym dir pos : Nat) (toks : List Str)
    (rc rd : Nat) (hsym : (sym = 0x3c ∧ dir = 1) ∨ (sym = 0x3e ∧ dir = 2))
    (hgap : ∀ c ∈ gap, isSpace 0x20 c = true) (hw : ∀ c ∈ w, isWord 0x20 c = true)
    (hpos : pos + (gap.length + w.length) ≠ 0) (hrc : rc < MAXREDIR) :
    StrtokStep 0x20 ⟨gap ++ (w ++ sym :: R), pos, toks, rc, rd⟩
      = some ⟨0x20 :: R, pos + (gap.length + w.length), commit toks w (0x20 :: R),
          rc + 1, dir⟩ := by
  have hstep := StrtokStep_scan 0x20 gap w (sym :: R) pos toks rc rd hgap hw
    (by rcases hsym with ⟨h, -⟩ | ⟨h, -⟩ <;> subst h <;> rfl)
    (by rcases hsym with ⟨h, -⟩ | ⟨h, -⟩ <;> subst h <;> intro _ <;> rfl)
  rw [hstep]
  rcases hsym with ⟨h, hd⟩ | ⟨h, hd⟩ <;> subst h <;> subst hd <;>
    simp [redirBlock, hpos, hrc, cur]

/-- The line `c sp1 sym sp2 f` and a newline, `sym` one redirection symbol:
the tokens are `c` and `f`, and `*redir` tells the symbol. -/
theorem Strtok_redirect_line (c f sp1 sp2 : Str) (sym dir : Nat)
    (hsym : (sym = 0x3c ∧ dir = 1) ∨ (sym = 0x3e ∧ dir = 2))
    (hc : plainWord c = true) (hf : plainWord f = true)
    (h1 : blankRun sp1 = true) (h2 : blankRun sp2 = true) :
    Strtok (c ++ sp1 ++ [sym] ++ sp2 ++ f ++ [0x0a]) 0x20 = some (.ret [c, f] dir) := by
  have hcne := plainWord_ne_nil c hc
  have hc0 : cur c ≠ 0 := isWord_ne_zero _ _ (plainWord_cur c hc)
  have hline : c ++ sp1 ++ [sym] ++ sp2 ++ f ++ [0x0a]
      = c ++ (sp1 ++ (sym :: (sp2 ++ (f ++ [0x0a])))) := by simp
  have hgo : isSym (cur (c ++ sp1 ++ [sym] ++ sp2 ++ f ++ [0x0a])) = false := by
    rw [hline, cur_append_of_ne_nil _ _ hcne]
    have := isWord_not_sym _ _ (plainWord_cur c hc)
    simp [isSym, this.1, this.2]
  have hlen : c.length ≠ 0 := by
    intro h; exact hcne (List.length_eq_zero.mp h)
  -- the rest of the line behind the symbol
  have hrest : ∀ (pos : Nat) (n : Nat), 3 ≤ n →
      StrtokLoop 0x20 n ⟨0x20 :: (sp2 ++ (f ++ [0x0a])), pos, [c], 1, dir⟩
        = some (.ret [c, f] dir) := by
    intro pos n hn
    have hb : blankRun (0x20 :: sp2) = true := by
      simpa [blankRun] using h2
    have := StrtokLoop_words [0x0a] (by decide) (by decide) 1 dir (by decide)
      [(0x20 :: sp2, f)] (by simpa using ⟨hb, hf⟩) (by simp) pos [c] n (by simpa using hn)
    simpa [spaced] using this
  apply Strtok_of_loop 0x20 _ 5 _ (Or.inl hgo)
  rw [hline]
  have hini : cur (StrtokInit (c ++ (sp1 ++ (sym :: (sp2 ++ (f ++ [0x0a])))))).str ≠ 0 := by
    simp only [StrtokInit]
    rw [cur_append_of_ne_nil _ _ hcne]; exact hc0
  by_cases hsp : sp1 = []
  · subst hsp
    have hstep := StrtokStep_redirect [] c (sp2 ++ (f ++ [0x0a])) sym dir 0 [] 0 0 hsym
      (by intro x hx; cases hx) (plainWord_word c hc) (by simpa using hlen) (by decide)
    simp only [List.nil_append] at hstep
    rw [commit_word [] c (0x20 :: (sp2 ++ (f ++ [0x0a]))) hc0 (by simp [cur])] at hstep
    rw [StrtokLoop_step _ _ _ _ hini (by simpa [StrtokInit] using hstep)]
    exact hrest _ _ (by omega)
  · have hsp1 := blankRun_space sp1 h1
    have hcs : isSpace 0x20 (cur (sp1 ++ (sym :: (sp2 ++ (f ++ [0x0a]))))) = true := by
      rw [cur_append_of_ne_nil _ _ hsp]
      exact hsp1 _ (cur_mem sp1 hsp)
    have hstep := StrtokStep_scan 0x20 [] c (sp1 ++ (sym :: (sp2 ++ (f ++ [0x0a])))) 0 [] 0 0
      (by intro x hx; cases hx) (plainWord_word c hc) (isWord_false_of_isSpace _ _ hcs)
      (fun h => absurd h hcne)
    rw [redirBlock_plain _ _ 0 0 (isSpace_not_sym _ hcs).1 (isSpace_not_sym _ hcs).2
      (by decide)] at hstep
    simp only [List.nil_append, List.length_nil, Nat.zero_add] at hstep
    rw [commit_word _ _ _ hc0 (isSpace_ne_zero _ _ hcs)] at hstep
    simp only [List.nil_append] at hstep
    rw [StrtokLoop_step _ _ _ _ hini (by simpa [StrtokInit] using hstep)]
    have hstep2 := StrtokStep_redirect sp1 [] (sp2 ++ (f ++ [0x0a])) sym dir
      c.length [c] 0 0 hsym hsp1 (by intro x hx; cases hx)
      (by omega) (by decide)
    simp only [List.nil_append, commit_nil] at hstep2
    rw [StrtokLoop_step _ _ _ _ (isSpace_ne_zero _ _ hcs) hstep2]
    exact hrest _ _ (by omega)

/-- The events of the child branch start with the calls of `Redirect` and
the first `execve`. -/
theorem ExecuteChild_events (w : World) (args : List Str) (redir : Nat)
    (h0 : cur ((childArgs args redir).headD []) ≠ 0) :
    ∃ more, (ExecuteChild w args redir).events
      = childRedirects args redir
        ++ Event.execve ((childArgs args redir).headD []) (childArgs args redir) :: more := by
  simp only [ExecuteChild, childExec, if_pos h0]
  split
  · exact ⟨[], rfl⟩
  · split
    · split
      · exact ⟨_, rfl⟩
      · exact ⟨_, rfl⟩
      · split <;> exact ⟨_, rfl⟩
      · split <;> exact ⟨_, rfl⟩
    · exact ⟨_, rfl⟩

/-- Function `Execute` runs its child branch when no interrupt is pending, `fork`
returns 0 and the command is not the builtin. -/
theorem Execute_eq_child (w : World) (arg0 : Str) (rest : List Str) (redir : Nat)
    (h0 : cur arg0 ≠ 0) (hx : Strcmp arg0 (bytes "exit") = 0)
    (hi : w.interrupt_state = false) (hf : w.fork = .child) :
    Execute w (arg0 :: rest) redir = ExecuteChild w (arg0 :: rest) redir := by
  simp [Execute, h0, hx, hi, hf]

/-! ## Claims -/

/-- C1: a line of words `w1 .. wn` (each not empty, without NUL, space, tab,
newline, `<`, `>`), separated by non-empty runs of spaces and tabs, with
optional runs in front and behind, and ended by a newline, is tokenized with
delimiter space into exactly `[w1, .., wn]` (the empty vector for `n = 0`)
with redirection 0.  `items` pairs each word with the run in front of it. -/
theorem Strtok_words (items : List (Str × Str)) (trail : Str)
    (hitems : ∀ p ∈ items, blankRun p.1 = true ∧ plainWord p.2 = true)
    (hsep : ∀ p ∈ items.tail, p.1 ≠ [])
    (htrail : blankRun trail = true) :
    Strtok (spaced items ++ trail ++ [0x0a]) 0x20 = some (.ret (items.map Prod.snd) 0) := by
  have htail : ∀ c ∈ trail ++ [0x0a], isSpace 0x20 c = true := by
    intro c hc
    rcases List.mem_append.mp hc with h | h
    · exact blankRun_space trail htrail c h
    · simp only [List.mem_singleton] at h; subst h; decide
  have htne : trail ++ [0x0a] ≠ [] := by simp
  have hloop := StrtokLoop_words (trail ++ [0x0a]) htail htne 0 0 (by decide) items hitems hsep
    0 [] (items.length + 2) (le_refl _)
  rw [List.append_assoc]
  refine Strtok_of_loop 0x20 _ _ _ (Or.inl ?_) (by simpa [StrtokInit] using hloop)
  exact isSym_cur_spaced items _ hitems (htail _ (cur_mem _ htne))

theorem Strtok_words_witness :
    Strtok (bytes "ls -la\n") 0x20 = some (.ret [bytes "ls", bytes "-la"] 0) :=
  Strtok_words [([], bytes "ls"), ([0x20], bytes "-la")] [] (by decide) (by decide) (by decide)

/-- C2: for a command word `c` and a file name `f`, the line `c < f` with any
runs of blanks (none too) around the symbol, ended by a newline, gives the
tokens `[c, f]` with redirection 1, and the child branch of `Execute` passes
`f` to `Redirect` with direction `INPUT` and the vector `[c]` to `execve`; the
line `c > f` gives redirection 2, and `Redirect` gets `f` with direction
`OUTPUT`.  `Execute` runs that branch when no interrupt is pending, `fork`
returns 0 and `c` is not the builtin. -/
theorem Strtok_Execute_single_redirect (c f sp1 sp2 : Str)
    (hc : plainWord c = true) (hf : plainWord f = true)
    (h1 : blankRun sp1 = true) (h2 : blankRun sp2 = true) :
    (Strtok (c ++ sp1 ++ [0x3c] ++ sp2 ++ f ++ [0x0a]) 0x20 = some (.ret [c, f] 1)
      ∧ ∀ w : World, (ExecuteChild w [c, f] 1).events.take 2
          = [.redirect (some f) INPUT, .execve c [c]])
    ∧ (Strtok (c ++ sp1 ++ [0x3e] ++ sp2 ++ f ++ [0x0a]) 0x20 = some (.ret [c, f] 2)
      ∧ ∀ w : World, (ExecuteChild w [c, f] 2).events.take 2
          = [.redirect (some f) OUTPUT, .execve c [c]])
    ∧ (∀ (w : World) (redir : Nat), w.interrupt_state = false → w.fork = .child →
        Strcmp c (bytes "exit") = 0 →
        Execute w [c, f] redir = ExecuteChild w [c, f] redir) := by
  have hc0 : cur c ≠ 0 := isWord_ne_zero _ _ (plainWord_cur c hc)
  refine ⟨⟨Strtok_redirect_line c f sp1 sp2 0x3c 1 (Or.inl ⟨rfl, rfl⟩) hc hf h1 h2, ?_⟩,
    ⟨Strtok_redirect_line c f sp1 sp2 0x3e 2 (Or.inr ⟨rfl, rfl⟩) hc hf h1 h2, ?_⟩, ?_⟩
  · intro w
    obtain ⟨more, h⟩ := ExecuteChild_events w [c, f] 1 (by simpa [childArgs] using hc0)
    rw [h]; rfl
  · intro w
    obtain ⟨more, h⟩ := ExecuteChild_events w [c, f] 2 (by simpa [childArgs] using hc0)
    rw [h]; rfl
  · intro w redir hi hfk hx
    exact Execute_eq_child w c [f] redir hc0 hx hi hfk


theorem Strtok_Execute_single_redirect_witness :
    (Strtok (bytes "cmd < in.txt\n") 0x20 = some (.ret [bytes "cmd", bytes "in.txt"] 1)
      ∧ ∀ w : World, (ExecuteChild w [bytes "cmd", bytes "in.txt"] 1).events.take 2
          = [.redirect (some (bytes "in.txt")) INPUT, .execve (bytes "cmd") [bytes "cmd"]])
    ∧ (Strtok (bytes "cmd > out.txt\n") 0x20 = some (.ret [bytes "cmd", bytes "out.txt"] 2)
      ∧ ∀ w : World, (ExecuteChild w [bytes "cmd", bytes "out.txt"] 2).events.take 2
          = [.redirect (some (bytes "out.txt")) OUTPUT, .execve (bytes "cmd") [bytes "cmd"]]) :=
  ⟨(Strtok_Execute_single_redirect (bytes "cmd") (bytes "in.txt") [0x20] [0x20]
      (by decide) (by decide) (by decide) (by decide)).1,
   (Strtok_Execute_single_redirect (bytes "cmd") (bytes "out.txt") [0x20] [0x20]
      (by decide) (by decide) (by decide) (by decide)).2.1⟩

/-- C4, on the code: for `exit` alone `Execute` calls `exit (0)` and for
`exit 7` it calls `exit (7)`.  For `exit abc` the call of `strtol` converts
nothing and returns 0; with a C library that leaves `errno` alone then (as
ISO C describes, `einval = false`) `Execute` calls `exit (0)` with no
diagnostic, a silent normal exit.  Only with a library that reports `EINVAL`
is `DIE_WITH_ERROR` reached, and it also ends the process with code 0. -/
theorem Execute_exit_builtin (w : World) :
    Execute w [bytes "exit"] 0 = ⟨[], .exit false 0⟩
    ∧ Execute w [bytes "exit", bytes "7"] 0 = ⟨[], .exit false 7⟩
    ∧ (w.einval = false → Execute w [bytes "exit", bytes "abc"] 0 = ⟨[], .exit false 0⟩)
    ∧ (w.einval = true →
        Execute w [bytes "exit", bytes "abc"] 0
          = ⟨[.perror (bytes "strtol")], .exit false 0⟩) := by
  have hx : Strcmp (bytes "exit") (bytes "exit") = 1 := by decide
  have h0 : cur (bytes "exit") ≠ 0 := by decide
  have h7 : ∀ b, strtol b (bytes "7") = (7, 0) := by decide
  have ha : ∀ b, strtol b (bytes "abc") = (0, if b then EINVAL else 0) := by decide
  have ht7 : toInt32 7 = 7 := by decide
  have ht0 : toInt32 0 = 0 := by decide
  refine ⟨?_, ?_, ?_, ?_⟩
  · simp [Execute, h0, hx]
  · simp [Execute, h0, hx, h7, ht7]
  · intro he
    simp [Execute, h0, hx, ha, he, ht0]
  · intro he
    simp [Execute, h0, hx, ha, he, EINVAL, DIE_WITH_ERROR]

theorem Execute_exit_builtin_witness :
    Execute (parentWorld 0) [bytes "exit", bytes "abc"] 0 = ⟨[], .exit false 0⟩ :=
  (Execute_exit_builtin (parentWorld 0)).2.2.1 rfl

theorem Setenv_small : ∀ c, c < 255 → Setenv (c : Nat) = bytes "?=" ++ decimal (c : Nat) := by
  set_option maxRecDepth 100000 in decide

/-- A pass of the main loop whose command runs as a foreground child that
exits normally. -/
theorem mainIteration_parent (w : World) (env : List Str) (inputstr : Str)
    (tokens : List Str) (redir : Nat) (c : Nat)
    (htok : Strtok inputstr 0x20 = some (.ret tokens redir))
    (h0 : cur (tokens.headD []) ≠ 0)
    (hx : Strcmp (tokens.headD []) (bytes "exit") = 0)
    (hi : w.interrupt_state = false) (hf : w.fork = .parent) (hw : w.wait = some c) :
    mainIteration w env inputstr
      = if (c : Int) ≠ 255 then .next false (env.set 3 (Setenv c)) else .next false env := by
  cases tokens with
  | nil => exact absurd rfl h0
  | cons arg0 rest =>
    have h0' : cur arg0 ≠ 0 := h0
    have hx' : Strcmp arg0 (bytes "exit") = 0 := hx
    have hex : Execute w (arg0 :: rest) redir = ⟨[], .ret false c⟩ := by
      simp [Execute, h0', hx', hi, hf, hw]
    simp only [mainIteration, htok, hex]

/-- C5, as amended: when the foreground child of a command (not the builtin)
exits normally with a code `c` in `0 .. 254`, the pass of the main loop
leaves `?=` followed by the decimal text of `c` in `env[3]`; with the code
255 (the code of a child whose command was not found) the pass leaves the
environment table as it was. -/
theorem mainIteration_status (w : World) (env : List Str) (inputstr : Str)
    (tokens : List Str) (redir : Nat) (c : Nat)
    (htok : Strtok inputstr 0x20 = some (.ret tokens redir))
    (h0 : cur (tokens.headD []) ≠ 0)
    (hx : Strcmp (tokens.headD []) (bytes "exit") = 0)
    (hi : w.interrupt_state = false) (hf : w.fork = .parent) (hw : w.wait = some c) :
    (c < 255 →
      mainIteration w env inputstr = .next false (env.set 3 (bytes "?=" ++ decimal (c : Nat))))
    ∧ (c = 255 → mainIteration w env inputstr = .next false env) := by
  have h := mainIteration_parent w env inputstr tokens redir c htok h0 hx hi hf hw
  constructor
  · intro hc
    have hne : (c : Int) ≠ 255 := by omega
    rw [h, if_pos hne, Setenv_small c hc]
  · intro hc
    subst hc
    rw [h]
    simp

theorem mainIteration_status_witness :
    mainIteration (parentWorld 7) Initenv (bytes "ls -la\n")
      = .next false [bytes "SHELL=simpsh", bytes "PATH=/usr/bin/:", bytes "TERM=dumb",
          bytes "?=7"] :=
  (mainIteration_status (parentWorld 7) Initenv (bytes "ls -la\n") [bytes "ls", bytes "-la"] 0 7
    (by decide) (by decide) (by decide) rfl rfl rfl).1 (by decide)

/-- C5 as stated fails for the code 255: the child of `doesnotexist` calls
`exit (255)`, and after the pass of the main loop in the shell the status
entry still is the `?=` of `Initenv`, with no status in it. -/
theorem mainIteration_status_counterexample :
    (Execute (childWorld ENOENT) [bytes "doesnotexist"] 0).fate = .exit true 255
    ∧ mainIteration (parentWorld 255) Initenv (bytes "doesnotexist\n") = .next false Initenv
    ∧ Initenv.get? 3 = some (bytes "?=")
    ∧ Initenv.get? 3 ≠ some (bytes "?=" ++ decimal 255) := by
  decide

/-! ## Path resolution -/

theorem Strtok_PATH : Strtok PATH 0x3a = some (.ret [bytes "/usr/bin/"] 0) := by decide

/-- C7, on the code: for `cat -n < in.txt` the tokens are `cat`, `-n` and
`in.txt` with redirection 1, and the child branch of `Execute` passes
`args[1]`, the word `-n`, to `Redirect` and the vector `[cat]` to `execve`;
for `ls -l > out.txt` the file is `-l` and the vector is `[ls]`.  The file
named behind the symbol is not used and the arguments are lost. -/
theorem Execute_redirect_with_arguments :
    Strtok (bytes "cat -n < in.txt\n") 0x20
      = some (.ret [bytes "cat", bytes "-n", bytes "in.txt"] 1)
    ∧ (∀ w : World, (ExecuteChild w [bytes "cat", bytes "-n", bytes "in.txt"] 1).events.take 2
        = [.redirect (some (bytes "-n")) INPUT, .execve (bytes "cat") [bytes "cat"]])
    ∧ Strtok (bytes "ls -l > out.txt\n") 0x20
      = some (.ret [bytes "ls", bytes "-l", bytes "out.txt"] 2)
    ∧ (∀ w : World, (ExecuteChild w [bytes "ls", bytes "-l", bytes "out.txt"] 2).events.take 2
        = [.redirect (some (bytes "-l")) OUTPUT, .execve (bytes "ls") [bytes "ls"]]) := by
  refine ⟨by decide, ?_, by decide, ?_⟩
  · intro w
    obtain ⟨more, h⟩ := ExecuteChild_events w [bytes "cat", bytes "-n", bytes "in.txt"] 1
      (by decide)
    rw [h]; rfl
  · intro w
    obtain ⟨more, h⟩ := ExecuteChild_events w [bytes "ls", bytes "-l", bytes "out.txt"] 2
      (by decide)
    rw [h]; rfl

/-- C8, on the code: a word that the input ends right behind is not
returned.  The path `/usr/bin/::/DIR_TO_ADD`, the macro `PATH` with
`:/DIR_TO_ADD` appended, splits into `/usr/bin/` alone; `/bin:/usr/bin`
splits into `/bin` alone; the line `ls -la` ended by the end of the input
gives `ls` alone. -/
theorem Strtok_drops_last_word :
    Strtok (PATH ++ bytes ":/DIR_TO_ADD") 0x3a = some (.ret [bytes "/usr/bin/"] 0)
    ∧ PATH ++ bytes ":/DIR_TO_ADD" = bytes "/usr/bin/::/DIR_TO_ADD"
    ∧ Strtok (bytes "/bin:/usr/bin") 0x3a = some (.ret [bytes "/bin"] 0)
    ∧ Strtok (bytes "ls -la") 0x20 = some (.ret [bytes "ls"] 0) := by
  decide

theorem Getpath_cases (opendir : Str → Option (List Str)) (b : Str) :
    (∃ bin, Getpath opendir b = .found bin) ∨ Getpath opendir b = .notFound := by
  simp only [Getpath, GetpathIn, Strtok_PATH]
  split
  · exact Or.inl ⟨_, rfl⟩
  · exact Or.inr rfl

theorem childArgs_head (args : List Str) (redir : Nat) :
    (childArgs args redir).headD [] = args.headD [] := by
  cases args with
  | nil => simp [childArgs]
  | cons a as => simp only [childArgs]; split_ifs <;> rfl

theorem Setenv_zero : Setenv 0 = bytes "?=0" := by decide

/-- C10: in the child branch of `Execute`, with `argv` the vector passed to
`execve` and `arg0` its first word: the child ends inside `Execute` only with
`exit (255)`, and only when the first `execve` fails with `ENOENT`, `arg0`
starts with neither `/` nor `.`, and the `execve` after `Getpath` fails too.
For every other failure of the first `execve` (another `errno`, or `arg0`
starting with `/` or `.`) `Execute` prints the diagnostic and returns 0 in
the child; the pass of the main loop in the child then writes `?=0` to
`env[3]` and the loop goes on there. -/
theorem ExecuteChild_failure (w : World) (args : List Str) (redir : Nat)
    (argv : List Str) (arg0 : Str)
    (hargv : argv = childArgs args redir) (harg0 : arg0 = argv.headD []) :
    (∀ code, (ExecuteChild w args redir).fate = .exit true code →
        code = 255
        ∧ w.execve arg0 argv = some ENOENT ∧ cur arg0 ≠ 0x2f ∧ cur arg0 ≠ 0x2e
        ∧ ∃ bin, (Getpath w.opendir arg0 = .found bin
                  ∨ (Getpath w.opendir arg0 = .notFound ∧ bin = []))
            ∧ w.execve bin (bin :: argv.tail) ≠ none)
    ∧ (cur arg0 ≠ 0 → w.execve arg0 argv = some ENOENT → cur arg0 ≠ 0x2f → cur arg0 ≠ 0x2e →
        (∀ bin, (Getpath w.opendir arg0 = .found bin
                  ∨ (Getpath w.opendir arg0 = .notFound ∧ bin = [])) →
            w.execve bin (bin :: argv.tail) ≠ none) →
        (ExecuteChild w args redir).fate = .exit true 255)
    ∧ (∀ errno, cur arg0 ≠ 0 → w.execve arg0 argv = some errno →
        (errno ≠ ENOENT ∨ cur arg0 = 0x2f ∨ cur arg0 = 0x2e) →
        ExecuteChild w args redir
          = ⟨childRedirects args redir ++ [.execve arg0 argv, .perror (bytes "simpsh")],
              .ret true 0⟩)
    ∧ (∀ (env : List Str) (inputstr : Str) (errno : Nat),
        Strtok inputstr 0x20 = some (.ret args redir) →
        cur arg0 ≠ 0 → Strcmp arg0 (bytes "exit") = 0 →
        w.interrupt_state = false → w.fork = .child →
        w.execve arg0 argv = some errno →
        (errno ≠ ENOENT ∨ cur arg0 = 0x2f ∨ cur arg0 = 0x2e) →
        mainIteration w env inputstr = .next true (env.set 3 (bytes "?=0"))) := by
  subst harg0
  subst hargv
  have hother : ∀ errno, cur ((childArgs args redir).headD []) ≠ 0 →
      w.execve ((childArgs args redir).headD []) (childArgs args redir) = some errno →
      (errno ≠ ENOENT ∨ cur ((childArgs args redir).headD []) = 0x2f
        ∨ cur ((childArgs args redir).headD []) = 0x2e) →
      ExecuteChild w args redir
        = ⟨childRedirects args redir ++ [.execve ((childArgs args redir).headD [])
            (childArgs args redir), .perror (bytes "simpsh")], .ret true 0⟩ := by
    intro errno h0 he hor
    have hcond : ¬ (errno = ENOENT ∧ cur ((childArgs args redir).headD []) ≠ 0x2f
        ∧ cur ((childArgs args redir).headD []) ≠ 0x2e) := by
      intro hh
      rcases hor with h | h | h
      · exact h hh.1
      · exact hh.2.1 h
      · exact hh.2.2 h
    simp only [ExecuteChild, childExec, if_pos h0, he, if_neg hcond]
  refine ⟨?_, ?_, hother, ?_⟩
  rotate_left
  · intro h0 he h2 h3 hretry
    simp only [ExecuteChild, childExec, if_pos h0, he]
    rw [if_pos ⟨trivial, h2, h3⟩]
    rcases Getpath_cases w.opendir ((childArgs args redir).headD []) with ⟨bin, hg⟩ | hg
    · have hf := hretry bin (Or.inl hg)
      rw [hg]
      simp only
      cases he2 : w.execve bin (bin :: (childArgs args redir).tail) with
      | none => exact absurd he2 hf
      | some e2 => rfl
    · have hf := hretry [] (Or.inr ⟨hg, rfl⟩)
      rw [hg]
      simp only
      cases he2 : w.execve [] ([] :: (childArgs args redir).tail) with
      | none => exact absurd he2 hf
      | some e2 => rfl
  rotate_left
  · intro code hfate
    simp only [ExecuteChild, childExec] at hfate
    split_ifs at hfate with h0
    · cases he : w.execve ((childArgs args redir).headD []) (childArgs args redir) with
      | none => rw [he] at hfate; simp at hfate
      | some errno =>
        rw [he] at hfate
        simp only at hfate
        split_ifs at hfate with hcond
        · obtain ⟨h1, h2, h3⟩ := hcond
          subst h1
          rcases Getpath_cases w.opendir ((childArgs args redir).headD []) with ⟨bin, hg⟩ | hg
          · rw [hg] at hfate
            simp only at hfate
            cases he2 : w.execve bin (bin :: (childArgs args redir).tail) with
            | none => rw [he2] at hfate; simp at hfate
            | some e2 =>
              rw [he2] at hfate
              simp only [Fate.exit.injEq, true_and] at hfate
              refine ⟨by omega, rfl, h2, h3, bin, Or.inl hg, ?_⟩
              rw [he2]; simp
          · rw [hg] at hfate
            simp only at hfate
            cases he2 : w.execve [] ([] :: (childArgs args redir).tail) with
            | none => rw [he2] at hfate; simp at hfate
            | some e2 =>
              rw [he2] at hfate
              simp only [Fate.exit.injEq, true_and] at hfate
              refine ⟨by omega, rfl, h2, h3, [], Or.inr ⟨hg, rfl⟩, ?_⟩
              rw [he2]; simp
  · intro env inputstr errno htok h0 hx hi hf he hor
    have hhead := childArgs_head args redir
    cases args with
    | nil =>
      rw [hhead] at h0
      exact absurd rfl h0
    | cons a rest =>
      have ha0 : cur a ≠ 0 := by rw [hhead] at h0; exact h0
      have hax : Strcmp a (bytes "exit") = 0 := by rw [hhead] at hx; exact hx
      have hex := Execute_eq_child w a rest redir ha0 hax hi hf
      simp only [mainIteration, htok, hex, hother errno h0 he hor]
      simp [Setenv_zero]

theorem ExecuteChild_failure_witness :
    mainIteration (childWorld 13) Initenv (bytes "./script\n")
      = .next true [bytes "SHELL=simpsh", bytes "PATH=/usr/bin/:", bytes "TERM=dumb",
          bytes "?=0"] :=
  (ExecuteChild_failure (childWorld 13) [bytes "./script"] 0 [bytes "./script"]
      (bytes "./script") (by decide) (by decide)).2.2.2
    Initenv (bytes "./script\n") 13 (by decide) (by decide) (by decide) rfl rfl rfl (by decide)

/-! ## Capacity of the token vector

With delimiter space every token that is kept is followed by a byte that is
not part of a word, so a line of fewer than `PROMPTSIZE` bytes never fills
the `TOKENSIZE` entries of the vector nor the `PROMPTSIZE` bytes of a token:
the unbounded lists of the embedding lose nothing on the lines of `Getline`. -/

theorem isWord_cur_dropWhile (delim : Nat) (l : Str) :
    isWord delim (cur (l.dropWhile (isWord delim))) = false := by
  induction l with
  | nil => exact isWord_zero delim
  | cons c cs ih =>
    by_cases hc : isWord delim c = true
    · rw [List.dropWhile_cons_of_pos hc]; exact ih
    · rw [List.dropWhile_cons_of_neg hc]
      simpa [cur] using hc

theorem redirBlock_cur (str : Str) (pos rc rd : Nat) (r : Str × Nat × Nat)
    (h : redirBlock str pos rc rd = some r) :
    r.1 = str ∨ (cur r.1 = 0x20 ∧ isSym (cur str) = true) := by
  unfold redirBlock at h
  split_ifs at h with h1 h2 h3 h4 h5
  · cases h; exact Or.inr ⟨rfl, by simp [isSym, h3]⟩
  · cases h; exact Or.inr ⟨rfl, by simp [isSym, h4]⟩
  · cases h; exact Or.inl rfl
  · cases h; exact Or.inl rfl
  · cases h; exact Or.inl rfl

theorem StrtokStep_withinLine (L : Nat) (s s' : TokState) (h0 : cur s.str ≠ 0)
    (hJ : withinLine L s) (h : StrtokStep 0x20 s = some s') : withinLine L s' := by
  obtain ⟨hJ1, hJ2, hJ3⟩ := hJ
  unfold StrtokStep at h
  simp only at h
  have hs1 := length_dropWhile_le (isSpace 0x20) s.str
  have htd : ((s.str.dropWhile (isSpace 0x20)).takeWhile (isWord 0x20)).length
      + ((s.str.dropWhile (isSpace 0x20)).dropWhile (isWord 0x20)).length
      = (s.str.dropWhile (isSpace 0x20)).length := by
    rw [← List.length_append, List.takeWhile_append_dropWhile]
  have hw2 := isWord_cur_dropWhile 0x20 (s.str.dropWhile (isSpace 0x20))
  generalize hs1e : s.str.dropWhile (isSpace 0x20) = s1 at h hs1 htd hw2
  generalize htoke : s1.takeWhile (isWord 0x20) = tok at h htd
  generalize hs2e : s1.dropWhile (isWord 0x20) = s2 at h htd hw2
  cases hr : redirBlock s2 (s.pos + (s.str.length - s2.length)) s.redir_count s.redir with
  | none => rw [hr] at h; cases h
  | some r =>
    rw [hr] at h
    obtain ⟨str', rc', rd'⟩ := r
    simp only [Option.some.injEq] at h
    subst h
    have hlen : str'.length = s2.length := redirBlock_length _ _ _ _ _ hr
    have hwc : isWord 0x20 (cur str') = false := by
      rcases redirBlock_cur _ _ _ _ _ hr with hc | ⟨hc, -⟩
      · simp only at hc; rw [hc]; exact hw2
      · simp only at hc; rw [hc]; rfl
    have hroom' : tokRoom L ⟨str', s.pos + (s.str.length - s2.length),
        commit s.tokens tok str', rc', rd'⟩ = L + (if cur str' ≠ 0 then 1 else 0) := by
      simp [tokRoom, hwc]
    have hcommit : commit s.tokens tok str' = s.tokens
        ∨ (commit s.tokens tok str' = s.tokens ++ [tok] ∧ 1 ≤ tok.length ∧ cur str' ≠ 0) := by
      simp only [commit, Strcmp_nil]
      by_cases ht : cur tok ≠ 0
      · by_cases hc : cur str' ≠ 0
        · right
          have : tok ≠ [] := by
            intro hn; rw [hn] at ht; exact ht rfl
          have : 1 ≤ tok.length := List.length_pos.mpr this
          simp [ht, hc, this]
        · left; simp [ht, hc]
      · left; simp [ht]
    have htokL : tok.length ≤ L := by omega
    -- the three kinds of byte under `str` at the start of the pass
    have hkey : 2 * (commit s.tokens tok str').length + str'.length
        ≤ L + (if cur str' ≠ 0 then 1 else 0) := by
      rcases byte_cases 0x20 (cur s.str) with hb | hb | hb | ⟨hb1, hb2, hb3⟩
      · exact absurd hb h0
      · have hne : s.str ≠ [] := by
          intro hn; rw [hn] at h0; exact h0 rfl
        have hlt := length_dropWhile_lt_of_head (isSpace 0x20) s.str hb hne
        rw [hs1e] at hlt
        have hold : tokRoom L s ≤ L + 1 := by
          unfold tokRoom; split_ifs <;> omega
        rcases hcommit with hc | ⟨hc, ht1, hc0⟩
        · rw [hc]; split_ifs <;> omega
        · rw [hc, if_pos hc0, List.length_append, List.length_singleton]; omega
      · have hold : tokRoom L s = L := by
          simp [tokRoom, hb]
        rcases hcommit with hc | ⟨hc, ht1, hc0⟩
        · rw [hc]; split_ifs <;> omega
        · rw [hc, if_pos hc0, List.length_append, List.length_singleton]; omega
      · have e1 : s1 = s.str := by
          rw [← hs1e]; exact dropWhile_eq_self_of_head _ _ hb2
        have e2 : s2 = s.str := by
          rw [← hs2e, e1]; exact dropWhile_eq_self_of_head _ _ hb3
        have e3 : tok = [] := by
          rw [← htoke, e1]; exact takeWhile_eq_nil_of_head _ _ hb3
        have hold : tokRoom L s ≤ L + 1 := by
          unfold tokRoom; split_ifs <;> omega
        have hc0 : cur str' ≠ 0 := by
          rcases redirBlock_cur _ _ _ _ _ hr with hc | ⟨hc, -⟩
          · simp only at hc; rw [hc, e2]; exact h0
          · simp only at hc; rw [hc]; decide
        rw [e3, commit_nil, if_pos hc0]
        omega
    refine ⟨by rw [hroom']; exact hkey, by simp only; omega, ?_⟩
    intro t ht
    simp only at ht
    rcases hcommit with hc | ⟨hc, -, -⟩
    · rw [hc] at ht; exact hJ3 t ht
    · rw [hc] at ht
      rcases List.mem_append.mp ht with h1 | h1
      · exact hJ3 t h1
      · simp only [List.mem_singleton] at h1; rw [h1]; exact htokL

theorem StrtokIter_withinLine (L : Nat) :
    ∀ (n : Nat) (s s' : TokState), withinLine L s → StrtokIter 0x20 n s = some s' →
      withinLine L s' := by
  intro n
  induction n with
  | zero =>
    intro s s' hJ h
    simp only [StrtokIter, Option.some.injEq] at h
    rw [← h]; exact hJ
  | succ n ih =>
    intro s s' hJ h
    unfold StrtokIter at h
    split_ifs at h with h0
    cases hstep : StrtokStep 0x20 s with
    | none => rw [hstep] at h; cases h
    | some s1 =>
      rw [hstep] at h
      exact ih s1 s' (StrtokStep_withinLine L s s1 h0 hJ hstep) h

/-- On a line of fewer than `PROMPTSIZE` bytes, with delimiter space, the
state at the head of the loop after any number of passes has fewer than
`TOKENSIZE` tokens, each of fewer than `PROMPTSIZE` bytes: the writes to
`tokens[token_index]` and to the token stay inside their blocks. -/
theorem Strtok_within_capacity (str : Str) (hlen : str.length < PROMPTSIZE) (n : Nat)
    (s : TokState) (h : StrtokIter 0x20 n (StrtokInit str) = some s) :
    s.tokens.length < TOKENSIZE ∧ ∀ t ∈ s.tokens, t.length < PROMPTSIZE := by
  have hinit : withinLine str.length (StrtokInit str) := by
    refine ⟨?_, le_refl _, ?_⟩
    · simp only [StrtokInit, tokRoom, List.length_nil]; omega
    · intro t ht; cases ht
  obtain ⟨h1, h2, h3⟩ := StrtokIter_withinLine str.length n _ s hinit h
  simp only [PROMPTSIZE] at hlen
  constructor
  · simp only [TOKENSIZE]
    unfold tokRoom at h1
    split_ifs at h1 with hc
    · have : s.str ≠ [] := by
        intro hn; rw [hn] at hc; exact hc.1 rfl
      have := List.length_pos.mpr this
      omega
    · omega
  · intro t ht
    have := h3 t ht
    simp only [PROMPTSIZE]
    omega

end Simpsh
